import Mathlib

/-!
Verification of the blackjack core: a shallow embedding of `_card.py`,
`_deck.py`, `_hand.py` and the round logic of `_blackjack.py`, together
with theorems settling the specification's claims about them.
-/

namespace Blackjack

/-- A playing card (`Card` in `_card.py`): immutable `rank`/`suit`, the
stored visibility flag `_is_flipped` (field `flipped`), and the current
`_value` (set at construction, mutable only for aces). -/
structure Card where
  rank : Nat
  suit : Nat
  value : Nat
  flipped : Bool
deriving DecidableEq

/-- The value `Card.__init__` derives from the rank: ace (1) starts at 11,
face cards (11-13) are worth 10, numeric and stop cards are worth their rank. -/
def derivedValue (rank : Nat) : Nat :=
  if rank = 1 then 11
  else if 11 ≤ rank ∧ rank ≤ 13 then 10
  else rank

/-- `Card.__init__` with the value it computes; rank/suit range validation
(`0 ≤ rank ≤ 13`, `0 ≤ suit ≤ 4`) is tracked by `Card.valid` below. -/
def mkCard (rank : Nat) (suit : Nat := 0) (flipped : Bool := false) : Card :=
  ⟨rank, suit, derivedValue rank, flipped⟩

/-- The range checks of `Card.__init__` (a `ValueError` is raised otherwise). -/
def Card.valid (c : Card) : Prop :=
  c.rank ≤ 13 ∧ c.suit ≤ 4

/-- `Card.stop_card()`: rank 0 and no suit. -/
def stopCard : Card := mkCard 0

/-- The `Card.is_flipped` property: `self._is_flipped if self != 0 else False`
(card equality compares ranks, so `self != 0` is `rank ≠ 0`). -/
def Card.is_flipped (c : Card) : Bool :=
  if c.rank ≠ 0 then c.flipped else false

/-- `Card.flip()`: toggles the stored `_is_flipped` flag. -/
def Card.flip (c : Card) : Card :=
  { c with flipped := !c.flipped }

/-- The branch of `Card.__repr__`: a card is displayed as the hidden card
back `🂠` exactly when its `is_flipped` property is true; otherwise its rank
and suit symbols are shown (a rank-0 stop card shows the blank rectangle). -/
def Card.shownAsHiddenBack (c : Card) : Bool :=
  c.is_flipped

/-- The `Card.value` setter: only an ace may change value, and only to 11
or 1 (`ValueError`, modelled as `none`, otherwise). -/
def Card.setValue (c : Card) (v : Nat) : Option Card :=
  if c.rank ≠ 1 then none
  else if v ≠ 11 ∧ v ≠ 1 then none
  else some { c with value := v }

/-- A card whose stored value is one the program can produce: an ace holds
11 or 1, every other card holds its construction-derived value. -/
def WFCard (c : Card) : Prop :=
  if c.rank = 1 then c.value = 11 ∨ c.value = 1 else c.value = derivedValue c.rank

instance (c : Card) : Decidable (WFCard c) := by
  unfold WFCard; infer_instance

/-- The shoe (`Deck` in `_deck.py`).  The Python list `_cards` has its draw
point at the tail (`pop()` removes the last element); we store the same
sequence in draw order, so `cards.head` is the next card drawn and the
Python list is `cards.reverse`. -/
structure Deck where
  num_decks : Nat
  use_stop_card : Bool
  insert_reached : Bool
  cards : List Card
deriving DecidableEq

/-- What `Deck._reset_cards` guarantees about the freshly shuffled card list
(in draw order): `52 * num_decks` real cards (ranks 1-13, four suits), and if
`use_stop_card` one stop card inserted at a Python-list index drawn from
`randint(60, 75)` - i.e. at a draw-order position leaving between 60 and 75
cards beneath it (drawn after it). -/
def ResetSpec (nd : Nat) (us : Bool) (cs : List Card) : Prop :=
  if us then
    cs.length = 52 * nd + 1 ∧
    ∃ j : Fin cs.length, (cs.get j).rank = 0 ∧
      60 ≤ cs.length - 1 - j.val ∧ cs.length - 1 - j.val ≤ 75 ∧
      ∀ i : Fin cs.length, i ≠ j → 1 ≤ (cs.get i).rank ∧ (cs.get i).rank ≤ 13
  else
    cs.length = 52 * nd ∧ ∀ i : Fin cs.length, 1 ≤ (cs.get i).rank ∧ (cs.get i).rank ≤ 13

instance (nd : Nat) (us : Bool) (cs : List Card) : Decidable (ResetSpec nd us cs) := by
  unfold ResetSpec; split <;> infer_instance

/-- The invariant maintained by the card list of every reachable deck state:
ranks are in range, at most one stop card is present, and a present stop card
always has at least 60 cards drawn after it (its `randint(60, 75)` insertion
point, unchanged because cards are drawn from the other end). -/
def DeckInv (cs : List Card) : Prop :=
  (∀ c ∈ cs, c.rank ≤ 13) ∧
  cs.countP (fun c => c.rank == 0) ≤ 1 ∧
  ∀ i : Fin cs.length, (cs.get i).rank = 0 → i.val + 61 ≤ cs.length

instance (cs : List Card) : Decidable (DeckInv cs) := by
  unfold DeckInv; infer_instance

/-- `Deck.draw_card(face_down)`.  If the deck is empty it is first rebuilt by
`shuffle()`/`_reset_cards` - the rebuilt list is passed in as `fresh` (the
shuffle is random; theorems constrain it through `ResetSpec`).  The top card
is popped; if it is the stop card (`card == STOP_CARD`, i.e. rank 0,
`STOP_CARD` being `Card.stop_card()` per the spec's marker description),
`insert_reached` is set and a replacement is popped with no emptiness check
(`none` models the `IndexError` a failing pop would raise).  Unless
`face_down`, the card is flipped before being returned. -/
def Deck.draw_card (d : Deck) (fresh : List Card) (face_down : Bool) :
    Option (Card × Deck) :=
  let cs := if d.cards = [] then fresh else d.cards
  match cs with
  | [] => none
  | c :: rest =>
    if c.rank = 0 then
      match rest with
      | [] => none
      | c2 :: rest2 =>
        some (if face_down then c2 else c2.flip,
              { d with cards := rest2, insert_reached := true })
    else
      some (if face_down then c else c.flip,
            { d with cards := rest })

/-- The `Deck.cards_left` property: without a stop card it is the list
length; with one it is `len(cards) - cards.index(STOP_CARD) - 1`, where
`.index` searches the Python list (our list reversed) and raises
`ValueError` (modelled as `none`) when no rank-0 card is present. -/
def Deck.cards_left (d : Deck) : Option Nat :=
  if !d.use_stop_card then some d.cards.length
  else
    match d.cards.reverse.findIdx? (fun c => c.rank == 0) with
    | none => none
    | some i => some (d.cards.length - i - 1)

lemma DeckInv.tail {c : Card} {rest : List Card}
    (hinv : DeckInv (c :: rest)) (_hc : c.rank ≠ 0) : DeckInv rest := by
  obtain ⟨h1, h2, h3⟩ := hinv
  refine ⟨fun x hx => h1 x (List.mem_cons_of_mem _ hx), ?_, ?_⟩
  · have hcnt : (c :: rest).countP (fun c => c.rank == 0) =
        rest.countP (fun c => c.rank == 0) + if c.rank == 0 then 1 else 0 :=
      List.countP_cons _ _ _
    omega
  · intro i hi
    have hlen : i.val + 1 < (c :: rest).length := by
      simp only [List.length_cons]; omega
    have hget : (c :: rest).get ⟨i.val + 1, hlen⟩ = rest.get i := by
      simp [List.get_cons_succ]
    have := h3 ⟨i.val + 1, hlen⟩ (by rw [hget]; exact hi)
    simp only [List.length_cons] at this
    omega

lemma length_le_one_of_nodup_const {α : Type} {l : List α} {a : α}
    (hnd : l.Nodup) (h : ∀ x ∈ l, x = a) : l.length ≤ 1 := by
  cases l with
  | nil => simp
  | cons x t =>
    cases t with
    | nil => simp
    | cons y t2 =>
      exfalso
      have hx : x = a := h x (by simp)
      have hy : y = a := h y (by simp)
      have : x ≠ y := by
        have := List.nodup_cons.mp hnd
        intro hxy
        exact this.1 (hxy ▸ List.mem_cons_self _ _)
      exact this (hx.trans hy.symm)

lemma DeckInv.marker_head {c : Card} {rest : List Card}
    (hinv : DeckInv (c :: rest)) (hc : c.rank = 0) :
    ∃ c2 rest2, rest = c2 :: rest2 ∧ c2.rank ≠ 0 ∧ DeckInv rest2 := by
  obtain ⟨h1, h2, h3⟩ := hinv
  have hlen : 61 ≤ (c :: rest).length := by
    have := h3 ⟨0, by simp⟩ (by simpa using hc)
    simpa using this
  have hrest0 : rest.countP (fun c => c.rank == 0) = 0 := by
    have hcnt : (c :: rest).countP (fun c => c.rank == 0) =
        rest.countP (fun c => c.rank == 0) + if c.rank == 0 then 1 else 0 :=
      List.countP_cons _ _ _
    rw [hc] at hcnt
    norm_num at hcnt
    omega
  have hnomark : ∀ x ∈ rest, x.rank ≠ 0 := by
    intro x hx
    have := List.countP_eq_zero.mp hrest0 x hx
    simpa using this
  cases rest with
  | nil => simp at hlen
  | cons c2 rest2 =>
    refine ⟨c2, rest2, rfl, hnomark c2 (List.mem_cons_self _ _), ?_, ?_, ?_⟩
    · exact fun x hx => h1 x (List.mem_cons_of_mem _ (List.mem_cons_of_mem _ hx))
    · have hcnt : (c2 :: rest2).countP (fun c => c.rank == 0) =
          rest2.countP (fun c => c.rank == 0) + if c2.rank == 0 then 1 else 0 :=
        List.countP_cons _ _ _
      have hcnt2 : (c2 :: rest2).countP (fun c => c.rank == 0) = 0 := hrest0
      omega
    · intro i hi
      exfalso
      have : (rest2.get i).rank ≠ 0 :=
        hnomark _ (List.mem_cons_of_mem _ (rest2.get_mem _ _))
      exact this hi

lemma resetSpec_deckInv {nd : Nat} {us : Bool} {cs : List Card}
    (h : ResetSpec nd us cs) : DeckInv cs := by
  unfold ResetSpec at h
  by_cases hus : us = true
  · rw [if_pos hus] at h
    obtain ⟨hlen, j, hj0, hj60, _hj75, hreal⟩ := h
    refine ⟨?_, ?_, ?_⟩
    · intro x hx
      obtain ⟨i, hi⟩ := List.mem_iff_get.mp hx
      subst hi
      by_cases hij : i = j
      · subst hij; omega
      · have := hreal i hij; omega
    · have heq : cs.countP (fun c => c.rank == 0) =
          ((List.finRange cs.length).filter
            (fun i => (cs.get i).rank == 0)).length := by
        conv_lhs => rw [← List.finRange_map_get cs]
        rw [List.countP_map, List.countP_eq_length_filter]
        rfl
      rw [heq]
      refine length_le_one_of_nodup_const (a := j) ((List.nodup_finRange _).filter _) ?_
      intro i hi
      by_contra hne
      have := hreal i hne
      have hi0 : (cs.get i).rank = 0 := by
        have := (List.mem_filter.mp hi).2
        simpa using this
      omega
    · intro i hi
      have hij : i = j := by
        by_contra hne
        have := hreal i hne
        omega
      subst hij
      omega
  · rw [if_neg hus] at h
    obtain ⟨hlen, hreal⟩ := h
    refine ⟨?_, ?_, ?_⟩
    · intro x hx
      obtain ⟨i, hi⟩ := List.mem_iff_get.mp hx
      subst hi
      have := hreal i; omega
    · have : cs.countP (fun c => c.rank == 0) = 0 := by
        rw [List.countP_eq_zero]
        intro x hx
        obtain ⟨i, hi⟩ := List.mem_iff_get.mp hx
        subst hi
        have := hreal i
        simp only [beq_iff_eq]
        omega
      omega
    · intro i hi
      have := hreal i; omega

lemma resetSpec_ne_nil {nd : Nat} {us : Bool} {cs : List Card}
    (h : ResetSpec nd us cs) (hnd : 1 ≤ nd) : cs ≠ [] := by
  unfold ResetSpec at h
  intro hnil
  subst hnil
  by_cases hus : us = true
  · rw [if_pos hus] at h
    have := h.1
    simp at this
  · rw [if_neg hus] at h
    have := h.1
    simp at this
    omega

lemma draw_card_eq (d : Deck) (fresh : List Card) (face_down : Bool)
    (c : Card) (rest : List Card)
    (hel : (if d.cards = [] then fresh else d.cards) = c :: rest) :
    d.draw_card fresh face_down =
      if c.rank = 0 then
        match rest with
        | [] => none
        | c2 :: rest2 =>
          some (if face_down then c2 else c2.flip,
                { d with cards := rest2, insert_reached := true })
      else some (if face_down then c else c.flip, { d with cards := rest }) := by
  unfold Deck.draw_card
  rw [hel]

lemma flip_rank (c : Card) (b : Bool) : (if b then c else c.flip).rank = c.rank := by
  cases b <;> rfl

/-- C1: from every reachable deck state (one satisfying `DeckInv`, which
`_reset_cards` establishes and drawing preserves), `draw_card` succeeds and
returns a card of nonzero rank: when the popped card is the stop card,
`insert_reached` is set to `true` and the replacement pop succeeds (the
insertion window `randint(60, 75)` leaves at least 60 cards beneath the
marker), so the marker itself is never handed to a caller. -/
theorem draw_card_never_marker (d : Deck) (fresh : List Card) (face_down : Bool)
    (hinv : DeckInv d.cards) (hnd : 1 ≤ d.num_decks)
    (hfresh : ResetSpec d.num_decks d.use_stop_card fresh) :
    ∃ c d', d.draw_card fresh face_down = some (c, d') ∧ c.rank ≠ 0 ∧
      DeckInv d'.cards ∧
      ∀ c0 ∈ (if d.cards = [] then fresh else d.cards).head?,
        (c0.rank = 0 → d'.insert_reached = true) ∧
        (c0.rank ≠ 0 → d'.insert_reached = d.insert_reached) := by
  have hel : ∃ el, (if d.cards = [] then fresh else d.cards) = el ∧
      DeckInv el ∧ el ≠ [] := by
    by_cases hnil : d.cards = []
    · exact ⟨fresh, by rw [if_pos hnil], resetSpec_deckInv hfresh,
        resetSpec_ne_nil hfresh hnd⟩
    · exact ⟨d.cards, by rw [if_neg hnil], hinv, hnil⟩
  obtain ⟨el, helq, hinv2, hne⟩ := hel
  cases el with
  | nil => exact absurd rfl hne
  | cons c rest =>
    rw [draw_card_eq d fresh face_down c rest helq]
    by_cases hc : c.rank = 0
    · rw [if_pos hc]
      obtain ⟨c2, rest2, hrest, hc2, hinv3⟩ := hinv2.marker_head hc
      subst hrest
      refine ⟨if face_down then c2 else c2.flip,
        { d with cards := rest2, insert_reached := true }, rfl, ?_, hinv3, ?_⟩
      · rw [flip_rank]; exact hc2
      · intro c0 hc0
        rw [helq] at hc0
        simp only [List.head?_cons, Option.mem_def, Option.some.injEq] at hc0
        subst hc0
        exact ⟨fun _ => rfl, fun h => absurd hc h⟩
    · rw [if_neg hc]
      refine ⟨if face_down then c else c.flip, { d with cards := rest }, rfl, ?_,
        hinv2.tail hc, ?_⟩
      · rw [flip_rank]; exact hc
      · intro c0 hc0
        rw [helq] at hc0
        simp only [List.head?_cons, Option.mem_def, Option.some.injEq] at hc0
        subst hc0
        exact ⟨fun h => absurd h hc, fun _ => rfl⟩

/-- Witness for C1 at a concrete deck state. -/
theorem draw_card_never_marker_witness :
    DeckInv (Deck.mk 1 false false [mkCard 7 1]).cards ∧
    1 ≤ (Deck.mk 1 false false [mkCard 7 1]).num_decks ∧
    ResetSpec 1 false (List.replicate 52 (mkCard 7 1)) ∧
    (∃ c d', (Deck.mk 1 false false [mkCard 7 1]).draw_card
        (List.replicate 52 (mkCard 7 1)) false = some (c, d') ∧ c.rank ≠ 0 ∧
      DeckInv d'.cards ∧
      ∀ c0 ∈ (if (Deck.mk 1 false false [mkCard 7 1]).cards = []
          then List.replicate 52 (mkCard 7 1)
          else (Deck.mk 1 false false [mkCard 7 1]).cards).head?,
        (c0.rank = 0 → d'.insert_reached = true) ∧
        (c0.rank ≠ 0 → d'.insert_reached =
          (Deck.mk 1 false false [mkCard 7 1]).insert_reached)) :=
  ⟨by decide, by decide, by decide,
    draw_card_never_marker (Deck.mk 1 false false [mkCard 7 1])
      (List.replicate 52 (mkCard 7 1)) false (by decide) (by decide) (by decide)⟩

/-- C10: with `use_stop_card` set, the `cards_left` property is total only
while the stop card is still in the deck; once the stop card has been drawn
(removed from the card list), `cards.index(Card.stop_card())` raises
`ValueError` (`none` here) instead of returning a count. -/
theorem cards_left_partial_after_marker (d : Deck)
    (hus : d.use_stop_card = true) :
    ((∃ c ∈ d.cards, c.rank = 0) → (d.cards_left).isSome = true) ∧
    ((∀ c ∈ d.cards, c.rank ≠ 0) → d.cards_left = none) := by
  unfold Deck.cards_left
  rw [hus]
  simp only [Bool.not_true, Bool.false_eq_true, if_false]
  constructor
  · intro ⟨c, hc, hc0⟩
    cases hfind : d.cards.reverse.findIdx? (fun c => c.rank == 0) with
    | some i => simp
    | none =>
      exfalso
      have := List.findIdx?_eq_none_iff.mp hfind c (by
        rw [List.mem_reverse]; exact hc)
      simp only [beq_iff_eq] at this
      exact absurd hc0 (by simpa using this)
  · intro hno
    have : d.cards.reverse.findIdx? (fun c => c.rank == 0) = none := by
      rw [List.findIdx?_eq_none_iff]
      intro x hx
      have := hno x (List.mem_reverse.mp hx)
      simpa using this
    rw [this]

/-- Witness for C10 at a concrete deck state (stop card already removed). -/
theorem cards_left_partial_after_marker_witness :
    (Deck.mk 2 true true [mkCard 7 1, mkCard 12 3]).use_stop_card = true ∧
    ((∃ c ∈ (Deck.mk 2 true true [mkCard 7 1, mkCard 12 3]).cards, c.rank = 0) →
      ((Deck.mk 2 true true [mkCard 7 1, mkCard 12 3]).cards_left).isSome = true) ∧
    ((∀ c ∈ (Deck.mk 2 true true [mkCard 7 1, mkCard 12 3]).cards, c.rank ≠ 0) →
      (Deck.mk 2 true true [mkCard 7 1, mkCard 12 3]).cards_left = none) :=
  ⟨rfl, cards_left_partial_after_marker (Deck.mk 2 true true [mkCard 7 1, mkCard 12 3]) rfl⟩

/-- C8 counterexample: a stop card whose stored flag says "flipped"
(hidden) is nevertheless reported by the `is_flipped` getter as *not*
flipped, i.e. face-up, and `__repr__` consequently does not display it as
the hidden card back (it shows the blank rectangle instead).  The claim
that the getter always reports face-down is therefore false. -/
theorem stop_card_reports_face_up_counterexample :
    (mkCard 0 0 true).is_flipped = false ∧
    (mkCard 0 0 true).shownAsHiddenBack = false := by
  constructor <;> rfl

/-- C8 amended: for every card of rank 0 the `is_flipped` getter returns
`false` (face-up) regardless of the stored flag, so the marker is always
displayed (as a blank rectangle), never as a hidden card back. -/
theorem stop_card_always_reports_face_up (c : Card) (h : c.rank = 0) :
    c.is_flipped = false ∧ c.shownAsHiddenBack = false := by
  unfold Card.shownAsHiddenBack Card.is_flipped
  rw [h]
  simp

/-- Witness for the amended C8 at a concrete stop card. -/
theorem stop_card_always_reports_face_up_witness :
    (mkCard 0 0 true).rank = 0 ∧
    ((mkCard 0 0 true).is_flipped = false ∧
      (mkCard 0 0 true).shownAsHiddenBack = false) :=
  ⟨rfl, stop_card_always_reports_face_up (mkCard 0 0 true) rfl⟩

/-- A hand (`Hand` in `_hand.py`): an ordered list of cards plus the number
of times the hand has been split. -/
structure Hand where
  cards : List Card
  times_split : Nat
deriving DecidableEq

/-- `Hand.score`: the sum of the current values of all cards. -/
def scoreOf (cs : List Card) : Nat :=
  (cs.map (fun c => c.value)).sum

def Hand.score (h : Hand) : Nat := scoreOf h.cards

/-- `Hand.is_busted`: score strictly above 21. -/
def Hand.is_busted (h : Hand) : Prop := 21 < h.score

instance (h : Hand) : Decidable h.is_busted := by unfold Hand.is_busted; infer_instance

/-- `Hand.is_21`. -/
def Hand.is_21 (h : Hand) : Prop := h.score = 21

instance (h : Hand) : Decidable h.is_21 := by unfold Hand.is_21; infer_instance

/-- One pass of the `for` loop in `Hand._orient_hand`: set the first card
currently valued 11 to 1 (`none` if there is none).  The Python loop assigns
through the `Card.value` setter, whose ace-only guard cannot fire here
because on well-formed cards only an ace ever holds the value 11. -/
def lowerFirstEleven (cs : List Card) : Option (List Card) :=
  match cs with
  | [] => none
  | c :: rest =>
    if c.value = 11 then some ({ c with value := 1 } :: rest)
    else (lowerFirstEleven rest).map (fun r => c :: r)

/-- Number of cards currently valued 11 (termination measure for the
`while` loop of `_orient_hand`). -/
def count11 (cs : List Card) : Nat :=
  cs.countP (fun c => c.value == 11)

lemma lowerFirstEleven_spec {cs cs' : List Card}
    (h : lowerFirstEleven cs = some cs') :
    count11 cs' + 1 = count11 cs ∧ scoreOf cs' + 10 = scoreOf cs ∧
    cs'.map (fun c => c.rank) = cs.map (fun c => c.rank) := by
  induction cs generalizing cs' with
  | nil => simp [lowerFirstEleven] at h
  | cons c rest ih =>
    unfold lowerFirstEleven at h
    by_cases hc : c.value = 11
    · rw [if_pos hc] at h
      simp only [Option.some.injEq] at h
      subst h
      refine ⟨?_, ?_, by simp⟩
      · unfold count11
        rw [List.countP_cons, List.countP_cons]
        simp [hc]
      · unfold scoreOf
        simp only [List.map_cons, List.sum_cons, hc]
        omega
    · rw [if_neg hc] at h
      cases hrec : lowerFirstEleven rest with
      | none => rw [hrec] at h; exact absurd h (by simp)
      | some r =>
        rw [hrec] at h
        simp only [Option.map_some', Option.some.injEq] at h
        subst h
        obtain ⟨h1, h2, h3⟩ := ih hrec
        refine ⟨?_, ?_, by simp [h3]⟩
        · unfold count11 at h1 ⊢
          rw [List.countP_cons, List.countP_cons]
          omega
        · unfold scoreOf at h2 ⊢
          simp only [List.map_cons, List.sum_cons]
          omega

lemma lowerFirstEleven_none {cs : List Card}
    (h : lowerFirstEleven cs = none) : count11 cs = 0 := by
  induction cs with
  | nil => simp [count11]
  | cons c rest ih =>
    unfold lowerFirstEleven at h
    by_cases hc : c.value = 11
    · rw [if_pos hc] at h; simp at h
    · rw [if_neg hc] at h
      cases hrec : lowerFirstEleven rest with
      | none =>
        unfold count11
        rw [List.countP_cons]
        have := ih hrec
        unfold count11 at this
        simp [hc, this]
      | some r => rw [hrec] at h; simp at h

/-- `Hand._orient_hand`: while the hand is busted, set an 11-valued ace to
1; stop when no longer busted or no 11-valued card remains. -/
def orientCards (cs : List Card) : List Card :=
  if 21 < scoreOf cs then
    match h : lowerFirstEleven cs with
    | some cs' => orientCards cs'
    | none => cs
  else cs
termination_by count11 cs
decreasing_by
  have := lowerFirstEleven_spec h
  omega

/-- `Hand.add(card, front)`: insert the card (at the back, or at the front
when `front`), then re-normalize with `_orient_hand`. -/
def Hand.add (h : Hand) (c : Card) (front : Bool := false) : Hand :=
  let cs := if front then c :: h.cards else h.cards ++ [c]
  { h with cards := orientCards cs }

/-- `Hand.can_split_same`: exactly two cards with equal ranks (`Card.__eq__`
compares ranks). -/
def Hand.can_split_same (h : Hand) : Bool :=
  h.cards.length = 2 &&
    match h.cards with
    | c0 :: c1 :: _ => c0.rank == c1.rank
    | _ => false

/-- `Hand.can_split`: two cards, and either the first card's rank is above
10 (a face card) and the two current values match, or the ranks match. -/
def Hand.can_split (h : Hand) : Bool :=
  match h.cards with
  | c0 :: c1 :: rest =>
    if rest ≠ [] then false
    else if 10 < c0.rank then c0.value == c1.value
    else h.can_split_same
  | _ => false

/-- Remove the last element of a list (`list.pop()`); `none` on the empty
list (`IndexError`). -/
def popLast (cs : List Card) : Option (List Card × Card) :=
  match cs with
  | [] => none
  | [c] => some ([], c)
  | c :: rest => (popLast rest).map (fun p => (c :: p.1, p.2))

/-- `Hand.split()`: increments `times_split`, restores a 1-valued first ace
to 11, removes the last card and returns it as a new hand carrying the same
`times_split`.  There is no eligibility check; only an empty hand fails
(`IndexError` on `self[0]`, modelled as `none`). -/
def Hand.split (h : Hand) : Option (Hand × Hand) :=
  match h.cards with
  | [] => none
  | c0 :: rest =>
    let c0' := if c0.value = 1 then { c0 with value := 11 } else c0
    (popLast (c0' :: rest)).map (fun p =>
      ({ cards := p.1, times_split := h.times_split + 1 },
       { cards := [p.2], times_split := h.times_split + 1 }))

lemma popLast_spec (cs : List Card) (hne : cs ≠ []) :
    ∃ init last, popLast cs = some (init, last) ∧ cs = init ++ [last] := by
  induction cs with
  | nil => exact absurd rfl hne
  | cons c rest ih =>
    cases rest with
    | nil => exact ⟨[], c, rfl, rfl⟩
    | cons c2 r2 =>
      obtain ⟨init, last, hpop, heq⟩ := ih (by simp)
      refine ⟨c :: init, last, ?_, by rw [heq]; rfl⟩
      simp [popLast, hpop]

/-- C5 counterexample: `split()` on a three-card (hence non-splittable)
hand does not fail with a state error - it succeeds, increments
`times_split` and removes the last card, because `Hand.split` performs no
`can_split` check at all (the guard lives in `Blackjack._player_turn`). -/
theorem split_unchecked_counterexample :
    (Hand.mk [mkCard 2 1, mkCard 3 1, mkCard 4 1] 0).can_split = false ∧
    (Hand.mk [mkCard 2 1, mkCard 3 1, mkCard 4 1] 0).split =
      some (Hand.mk [mkCard 2 1, mkCard 3 1] 1, Hand.mk [mkCard 4 1] 1) := by
  constructor <;> rfl

/-- C5 amended: `Hand.split` performs no eligibility check: on every
nonempty hand - splittable or not - it succeeds, increments the original
hand's `times_split`, restores a 1-valued first ace to 11, and moves the
last card into a new one-card hand carrying the same `times_split`; only
the empty hand fails (`IndexError`), and a caller must guard with
`can_split` itself. -/
theorem split_performs_no_check (h : Hand) (c0 : Card) (rest : List Card)
    (hcards : h.cards = c0 :: rest) :
    ∃ init last,
      (if c0.value = 1 then { c0 with value := 11 } else c0) :: rest =
        init ++ [last] ∧
      h.split = some (Hand.mk init (h.times_split + 1),
                      Hand.mk [last] (h.times_split + 1)) := by
  obtain ⟨init, last, hpop, heq⟩ :=
    popLast_spec ((if c0.value = 1 then { c0 with value := 11 } else c0) :: rest)
      (by simp)
  refine ⟨init, last, heq, ?_⟩
  unfold Hand.split
  rw [hcards]
  simp only [hpop, Option.map_some']

/-- Witness for the amended C5 at a concrete non-splittable hand. -/
theorem split_performs_no_check_witness :
    (Hand.mk [mkCard 2 1, mkCard 5 1, mkCard 9 1] 0).cards =
      mkCard 2 1 :: [mkCard 5 1, mkCard 9 1] ∧
    ∃ init last,
      (if (mkCard 2 1).value = 1 then { mkCard 2 1 with value := 11 }
        else mkCard 2 1) :: [mkCard 5 1, mkCard 9 1] = init ++ [last] ∧
      (Hand.mk [mkCard 2 1, mkCard 5 1, mkCard 9 1] 0).split =
        some (Hand.mk init ((Hand.mk [mkCard 2 1, mkCard 5 1, mkCard 9 1] 0).times_split + 1),
              Hand.mk [last] ((Hand.mk [mkCard 2 1, mkCard 5 1, mkCard 9 1] 0).times_split + 1)) :=
  ⟨rfl, split_performs_no_check (Hand.mk [mkCard 2 1, mkCard 5 1, mkCard 9 1] 0)
    (mkCard 2 1) [mkCard 5 1, mkCard 9 1] rfl⟩

lemma derivedValue_ten {r : Nat} (h1 : 10 ≤ r) (h2 : r ≤ 13) :
    derivedValue r = 10 := by
  unfold derivedValue
  rcases Nat.lt_or_ge r 11 with hr | hr
  · have hr10 : r = 10 := by omega
    subst hr10
    rfl
  · rw [if_neg (by omega), if_pos ⟨hr, h2⟩]

/-- C6 counterexample: under the permissive rule the hand `[10♠, K♥]` -
two ten-valued cards - is *not* split-eligible (`can_split` is `false`),
because `can_split` only compares values when the *first* card's rank
exceeds 10; with a 10 first it falls back to the exact-rank test.  The
reversed hand `[K♥, 10♠]` is eligible, so the claim that both orders are
eligible is false. -/
theorem can_split_diff_tens_counterexample :
    (mkCard 10 1).value = 10 ∧ (mkCard 13 2).value = 10 ∧
    (Hand.mk [mkCard 10 1, mkCard 13 2] 0).can_split = false ∧
    (Hand.mk [mkCard 13 2, mkCard 10 1] 0).can_split = true := by
  refine ⟨rfl, rfl, rfl, rfl⟩

/-- C6 amended: for a fresh two-card hand of ten-valued cards (ranks
10-13), the permissive `can_split` is true exactly when the first card is a
face card (rank above 10) or the two ranks are equal: `[K, 10]` is
split-eligible but `[10, K]` is not. -/
theorem can_split_ten_cards (c0 c1 : Card) (ts : Nat)
    (h0a : 10 ≤ c0.rank) (h0b : c0.rank ≤ 13)
    (h1a : 10 ≤ c1.rank) (h1b : c1.rank ≤ 13)
    (h0v : c0.value = derivedValue c0.rank)
    (h1v : c1.value = derivedValue c1.rank) :
    (Hand.mk [c0, c1] ts).can_split = true ↔
      (10 < c0.rank ∨ c0.rank = c1.rank) := by
  have hv0 : c0.value = 10 := by rw [h0v]; exact derivedValue_ten h0a h0b
  have hv1 : c1.value = 10 := by rw [h1v]; exact derivedValue_ten h1a h1b
  unfold Hand.can_split
  simp only [ne_eq, not_true_eq_false, if_false]
  by_cases hface : 10 < c0.rank
  · rw [if_pos hface]
    simp [hv0, hv1, hface]
  · rw [if_neg hface]
    unfold Hand.can_split_same
    simp [hface]

/-- Witness for the amended C6: `[K♥, 10♠]` is split-eligible. -/
theorem can_split_ten_cards_witness :
    10 ≤ (mkCard 13 2).rank ∧ (mkCard 13 2).rank ≤ 13 ∧
    10 ≤ (mkCard 10 1).rank ∧ (mkCard 10 1).rank ≤ 13 ∧
    (mkCard 13 2).value = derivedValue (mkCard 13 2).rank ∧
    (mkCard 10 1).value = derivedValue (mkCard 10 1).rank ∧
    ((Hand.mk [mkCard 13 2, mkCard 10 1] 0).can_split = true ↔
      (10 < (mkCard 13 2).rank ∨ (mkCard 13 2).rank = (mkCard 10 1).rank)) :=
  ⟨by decide, by decide, by decide, by decide, rfl, rfl,
    can_split_ten_cards (mkCard 13 2) (mkCard 10 1) 0 (by decide) (by decide)
      (by decide) (by decide) rfl rfl⟩

lemma getElem?_insertIdx_lt {α : Type} {l : List α} {x : α} {n j : Nat}
    (hn : n ≤ l.length) (hj : j < n) : (l.insertIdx n x)[j]? = l[j]? := by
  have hjl : j < l.length := lt_of_lt_of_le hj hn
  have hjl' : j < (l.insertIdx n x).length := by
    rw [List.length_insertIdx _ _ hn]; omega
  rw [List.getElem?_eq_getElem hjl, List.getElem?_eq_getElem hjl',
    List.getElem_insertIdx_of_lt l x n j hj hjl]

lemma getElem?_insertIdx_self_eq {α : Type} {l : List α} {x : α} {n : Nat}
    (hn : n ≤ l.length) : (l.insertIdx n x)[n]? = some x := by
  have hn' : n < (l.insertIdx n x).length := by
    rw [List.length_insertIdx _ _ hn]; omega
  rw [List.getElem?_eq_getElem hn', List.getElem_insertIdx_self l x n hn]

lemma getElem?_insertIdx_succ {α : Type} {l : List α} {x : α} {n j : Nat}
    (hn : n ≤ l.length) (hj : n ≤ j) : (l.insertIdx n x)[j + 1]? = l[j]? := by
  obtain ⟨k, rfl⟩ : ∃ k, j = n + k := ⟨j - n, by omega⟩
  rcases Nat.lt_or_ge (n + k) l.length with hjl | hjl
  · have hj1 : n + k + 1 < (l.insertIdx n x).length := by
      rw [List.length_insertIdx _ _ hn]; omega
    rw [List.getElem?_eq_getElem hjl, List.getElem?_eq_getElem hj1,
      List.getElem_insertIdx_add_succ l x n k hjl]
  · have h1 : l[n + k]? = none := List.getElem?_eq_none hjl
    have h2 : (l.insertIdx n x)[n + k + 1]? = none := by
      apply List.getElem?_eq_none
      rw [List.length_insertIdx _ _ hn]
      omega
    rw [h1, h2]

/-- The three parallel per-hand lists of a round
(`Blackjack._player_hands`, `_bets`, `_results`). -/
structure RoundLists where
  player_hands : List Hand
  bets : List Nat
  results : List (Option Int)
deriving DecidableEq

/-- The split branch of the `_player_turn` loop: `hand =
self._player_hands[i].split()` (which mutates hand `i` in place), then the
new hand, a copy of `self._bets[i]` and a fresh `None` result are inserted
at index `i + 1` of the three lists. -/
def playerSplitStep (st : RoundLists) (i : Nat) : Option RoundLists :=
  match st.player_hands[i]?, st.bets[i]? with
  | some h, some b =>
    (h.split).map (fun p =>
      { player_hands := (st.player_hands.set i p.1).insertIdx (i + 1) p.2
        bets := st.bets.insertIdx (i + 1) b
        results := st.results.insertIdx (i + 1) (none : Option Int) })
  | _, _ => none

/-- C9: splitting at hand index `i` keeps the three per-hand lists
parallel: the new hand, the copied wager and the pending (`None`) result
are all inserted at index `i + 1`, the lengths grow together by one, the
entries at indices `≤ i` are unchanged (hand `i` becomes the mutated
original), and every later entry shifts by one in all three lists. -/
theorem split_keeps_lists_parallel (st : RoundLists) (i : Nat) (h : Hand)
    (hlenb : st.bets.length = st.player_hands.length)
    (hlenr : st.results.length = st.player_hands.length)
    (hget : st.player_hands[i]? = some h) (hne : h.cards ≠ []) :
    ∃ h1 h2 st', h.split = some (h1, h2) ∧ playerSplitStep st i = some st' ∧
      st'.player_hands.length = st.player_hands.length + 1 ∧
      st'.bets.length = st'.player_hands.length ∧
      st'.results.length = st'.player_hands.length ∧
      st'.player_hands[i]? = some h1 ∧
      st'.player_hands[i + 1]? = some h2 ∧
      st'.bets[i + 1]? = st.bets[i]? ∧
      st'.results[i + 1]? = some none ∧
      (∀ j, j ≤ i → st'.bets[j]? = st.bets[j]? ∧
        st'.results[j]? = st.results[j]? ∧
        (j < i → st'.player_hands[j]? = st.player_hands[j]?)) ∧
      (∀ j, i < j → st'.bets[j + 1]? = st.bets[j]? ∧
        st'.results[j + 1]? = st.results[j]? ∧
        st'.player_hands[j + 1]? = st.player_hands[j]?) := by
  have hi : i < st.player_hands.length := by
    by_contra hcon
    rw [List.getElem?_eq_none (by omega)] at hget
    exact Option.noConfusion hget
  obtain ⟨c0, rest, hcards⟩ : ∃ c0 rest, h.cards = c0 :: rest := by
    cases hc : h.cards with
    | nil => exact absurd hc hne
    | cons a b => exact ⟨a, b, rfl⟩
  obtain ⟨init, last, _, hsplit⟩ := split_performs_no_check h c0 rest hcards
  have hbi : i < st.bets.length := by omega
  obtain ⟨b, hb⟩ : ∃ b, st.bets[i]? = some b :=
    ⟨st.bets.get ⟨i, hbi⟩, List.getElem?_eq_getElem hbi⟩
  have hset : (st.player_hands.set i (Hand.mk init (h.times_split + 1))).length =
      st.player_hands.length := by simp
  have hiset : i + 1 ≤ (st.player_hands.set i (Hand.mk init (h.times_split + 1))).length := by
    rw [hset]; omega
  refine ⟨Hand.mk init (h.times_split + 1), Hand.mk [last] (h.times_split + 1),
    RoundLists.mk
      ((st.player_hands.set i (Hand.mk init (h.times_split + 1))).insertIdx (i + 1)
        (Hand.mk [last] (h.times_split + 1)))
      (st.bets.insertIdx (i + 1) b)
      (st.results.insertIdx (i + 1) (none : Option Int)),
    hsplit, ?_, ?_, ?_, ?_, ?_, ?_, ?_, ?_, ?_, ?_⟩
  · unfold playerSplitStep
    rw [hget, hb]
    dsimp only
    rw [hsplit]
    rfl
  · dsimp only
    rw [List.length_insertIdx _ _ hiset, hset]
  · dsimp only
    rw [List.length_insertIdx _ _ (by omega), List.length_insertIdx _ _ hiset, hset]
    omega
  · dsimp only
    rw [List.length_insertIdx _ _ (by omega), List.length_insertIdx _ _ hiset, hset]
    omega
  · dsimp only
    rw [getElem?_insertIdx_lt hiset (by omega)]
    rw [List.getElem?_set_self (by omega)]
  · dsimp only
    rw [getElem?_insertIdx_self_eq hiset]
  · dsimp only
    rw [getElem?_insertIdx_self_eq (by omega), hb]
  · dsimp only
    rw [getElem?_insertIdx_self_eq (by omega)]
  · intro j hj
    refine ⟨?_, ?_, ?_⟩
    · dsimp only
      exact getElem?_insertIdx_lt (by omega) (by omega)
    · dsimp only
      exact getElem?_insertIdx_lt (by omega) (by omega)
    · intro hji
      dsimp only
      rw [getElem?_insertIdx_lt hiset (by omega)]
      rw [List.getElem?_set_ne (by omega)]
  · intro j hj
    refine ⟨?_, ?_, ?_⟩
    · dsimp only
      exact getElem?_insertIdx_succ (by omega) (by omega)
    · dsimp only
      exact getElem?_insertIdx_succ (by omega) (by omega)
    · dsimp only
      rw [getElem?_insertIdx_succ hiset (by omega)]
      rw [List.getElem?_set_ne (by omega)]

/-- A concrete one-hand round state (a pair of eights wagering 10). -/
def sampleRound : RoundLists :=
  RoundLists.mk [Hand.mk [mkCard 8 1, mkCard 8 2] 0] [(10 : Nat)] [(none : Option Int)]

/-- Witness for C9 at `sampleRound`, splitting hand 0. -/
theorem split_keeps_lists_parallel_witness :
    ∃ h1 h2 st', (Hand.mk [mkCard 8 1, mkCard 8 2] 0).split = some (h1, h2) ∧
      playerSplitStep sampleRound 0 = some st' ∧
      st'.player_hands.length = sampleRound.player_hands.length + 1 ∧
      st'.bets.length = st'.player_hands.length ∧
      st'.results.length = st'.player_hands.length ∧
      st'.player_hands[0]? = some h1 ∧
      st'.player_hands[0 + 1]? = some h2 ∧
      st'.bets[0 + 1]? = sampleRound.bets[0]? ∧
      st'.results[0 + 1]? = some none ∧
      (∀ j, j ≤ 0 → st'.bets[j]? = sampleRound.bets[j]? ∧
        st'.results[j]? = sampleRound.results[j]? ∧
        (j < 0 → st'.player_hands[j]? = sampleRound.player_hands[j]?)) ∧
      (∀ j, 0 < j → st'.bets[j + 1]? = sampleRound.bets[j]? ∧
        st'.results[j + 1]? = sampleRound.results[j]? ∧
        st'.player_hands[j + 1]? = sampleRound.player_hands[j]?) :=
  split_keeps_lists_parallel sampleRound 0 (Hand.mk [mkCard 8 1, mkCard 8 2] 0)
    rfl rfl rfl (by decide)

/-- `int(round(bet * 1.5))` as used by `_check_naturals` and
`_player_turn`.  For a wager `w` (a positive machine integer far below
`2^52`), `w * 1.5` is the exact binary float `3w/2`, and Python's `round`
rounds half to even: an even wager pays exactly `3w/2`; an odd wager's
exact half `3w/2` goes to whichever neighbouring integer is even. -/
def naturalPayout (w : Nat) : Nat :=
  if w % 2 = 0 then 3 * w / 2
  else if ((3 * w - 1) / 2) % 2 = 0 then (3 * w - 1) / 2 else (3 * w + 1) / 2

/-- `naturalPayout` is "w × 1.5 rounded to the nearest integer": its double
is within one of `3w`, it is exact when `3w` is even, and a tie is broken
towards the even integer. -/
lemma naturalPayout_round (w : Nat) :
    2 * naturalPayout w = 3 * w ∨
      ((2 * naturalPayout w = 3 * w + 1 ∨ 2 * naturalPayout w + 1 = 3 * w) ∧
        naturalPayout w % 2 = 0) := by
  unfold naturalPayout
  split
  · omega
  · split <;> omega

/-- The settlement loop body of `Blackjack._check_naturals`: the source
iterates `for i in range(len(self._player_hands))` over `_results`
pre-filled with `None`, reading `self._bets[i]`; with the parallel lists of
equal length (the engine's invariant) this is a `zipWith` over hands and
wagers. -/
def check_naturals (phs : List Hand) (house : Hand) (bets : List Nat) :
    List (Option Int) :=
  List.zipWith (fun hp bet =>
    if hp.is_21 ∧ ¬house.is_21 then some ((naturalPayout bet : Nat) : Int)
    else if house.is_21 ∧ ¬hp.is_21 then some (-(bet : Int))
    else if hp.is_21 ∧ house.is_21 then some (0 : Int)
    else none) phs bets

/-- C2: in the naturals check, hand `i` with wager `w` settles to
`round(w × 1.5)` (half-to-even, as Python's `round`) when only the player
has 21, to `-w` when only the dealer has 21, to `0` when both do, and stays
pending (`None`) otherwise. -/
theorem check_naturals_settlements (phs : List Hand) (house : Hand)
    (bets : List Nat) (hlen : bets.length = phs.length)
    (i : Nat) (hi : i < phs.length) :
    ∃ hp w, phs[i]? = some hp ∧ bets[i]? = some w ∧
      ∃ r, (check_naturals phs house bets)[i]? = some r ∧
        (hp.is_21 ∧ ¬house.is_21 →
          r = some ((naturalPayout w : Nat) : Int) ∧
          (2 * naturalPayout w = 3 * w ∨
            ((2 * naturalPayout w = 3 * w + 1 ∨ 2 * naturalPayout w + 1 = 3 * w) ∧
              naturalPayout w % 2 = 0))) ∧
        (house.is_21 ∧ ¬hp.is_21 → r = some (-(w : Int))) ∧
        (hp.is_21 ∧ house.is_21 → r = some 0) ∧
        (¬hp.is_21 ∧ ¬house.is_21 → r = none) := by
  have hib : i < bets.length := by omega
  refine ⟨phs.get ⟨i, hi⟩, bets.get ⟨i, hib⟩, List.getElem?_eq_getElem hi,
    List.getElem?_eq_getElem hib, ?_⟩
  refine ⟨if (phs.get ⟨i, hi⟩).is_21 ∧ ¬house.is_21
      then some ((naturalPayout (bets.get ⟨i, hib⟩) : Nat) : Int)
      else if house.is_21 ∧ ¬(phs.get ⟨i, hi⟩).is_21 then some (-((bets.get ⟨i, hib⟩) : Int))
      else if (phs.get ⟨i, hi⟩).is_21 ∧ house.is_21 then some (0 : Int)
      else none, ?_, ?_, ?_, ?_, ?_⟩
  · unfold check_naturals
    rw [List.getElem?_zipWith, List.getElem?_eq_getElem hi,
      List.getElem?_eq_getElem hib]
    rfl
  · intro ⟨hp21, hh21⟩
    rw [if_pos ⟨hp21, hh21⟩]
    exact ⟨rfl, naturalPayout_round _⟩
  · intro ⟨hh21, hp21⟩
    rw [if_neg (fun hcon => hp21 hcon.1), if_pos ⟨hh21, hp21⟩]
  · intro ⟨hp21, hh21⟩
    rw [if_neg (fun hcon => hcon.2 hh21), if_neg (fun hcon => hcon.2 hp21),
      if_pos ⟨hp21, hh21⟩]
  · intro ⟨hp21, hh21⟩
    rw [if_neg (fun hcon => hp21 hcon.1), if_neg (fun hcon => hh21 hcon.1),
      if_neg (fun hcon => hp21 hcon.1)]

/-- Witness for C2: one hand holding a natural (ace + king) with wager 5
against a dealer hand scoring 17. -/
theorem check_naturals_settlements_witness :
    (([5] : List Nat)).length = [Hand.mk [mkCard 1 1, mkCard 13 2] 0].length ∧
    0 < [Hand.mk [mkCard 1 1, mkCard 13 2] 0].length ∧
    (∃ hp w, [Hand.mk [mkCard 1 1, mkCard 13 2] 0][0]? = some hp ∧
      ([5] : List Nat)[0]? = some w ∧
      ∃ r, (check_naturals [Hand.mk [mkCard 1 1, mkCard 13 2] 0]
          (Hand.mk [mkCard 10 1, mkCard 7 2] 0) [5])[0]? = some r ∧
        (hp.is_21 ∧ ¬(Hand.mk [mkCard 10 1, mkCard 7 2] 0).is_21 →
          r = some ((naturalPayout w : Nat) : Int) ∧
          (2 * naturalPayout w = 3 * w ∨
            ((2 * naturalPayout w = 3 * w + 1 ∨ 2 * naturalPayout w + 1 = 3 * w) ∧
              naturalPayout w % 2 = 0))) ∧
        ((Hand.mk [mkCard 10 1, mkCard 7 2] 0).is_21 ∧ ¬hp.is_21 →
          r = some (-(w : Int))) ∧
        (hp.is_21 ∧ (Hand.mk [mkCard 10 1, mkCard 7 2] 0).is_21 → r = some 0) ∧
        (¬hp.is_21 ∧ ¬(Hand.mk [mkCard 10 1, mkCard 7 2] 0).is_21 → r = none)) :=
  ⟨rfl, by decide,
    check_naturals_settlements [Hand.mk [mkCard 1 1, mkCard 13 2] 0]
      (Hand.mk [mkCard 10 1, mkCard 7 2] 0) [5] rfl 0 (by decide)⟩

/-- How one iteration of `Blackjack._collect_bets` can fail.
`attrErr` models the `AttributeError` that the below-minimum branch
actually raises: its `ValueError` message interpolates `self.bet`, an
attribute that does not exist on `Blackjack`, and the f-string is evaluated
before the `ValueError` is constructed.  `invalidWager` is the `ValueError`
of the above-maximum branch. -/
inductive BetFailure where
  | attrErr
  | invalidWager
deriving DecidableEq

/-- One iteration of the wager loop of `Blackjack._collect_bets`: compute
the effective maximum `min(money_left - sum(bets), max_bet)` (`max_bet =
none` meaning unlimited), validate the entered wager, and only then append
it to the bets list. -/
def collectBetStep (money_left min_bet : Int) (max_bet : Option Int)
    (bets : List Int) (bet : Int) : Except BetFailure (List Int) :=
  let maxb : Int := match max_bet with
    | none => money_left - bets.sum
    | some m => min (money_left - bets.sum) m
  if ¬ (min_bet ≤ bet) then .error .attrErr
  else if ¬ (bet ≤ maxb) then .error .invalidWager
  else .ok (bets ++ [bet])

/-- The full `for` loop of `Blackjack._collect_bets` over the sequence of
entered wagers, starting from the empty bets list; the first failure
propagates (the exception aborts the loop before any mutation). -/
def collectBetsFrom (money_left min_bet : Int) (max_bet : Option Int)
    (bets : List Int) : List Int → Except BetFailure (List Int)
  | [] => .ok bets
  | b :: rest =>
    match collectBetStep money_left min_bet max_bet bets b with
    | .error e => .error e
    | .ok bets' => collectBetsFrom money_left min_bet max_bet bets' rest

def collect_bets (money_left min_bet : Int) (max_bet : Option Int)
    (inputs : List Int) : Except BetFailure (List Int) :=
  collectBetsFrom money_left min_bet max_bet [] inputs

/-- C7 (code bug): with bankroll 1000, `min_bet = 2` and `max_bet = 500`, a
below-minimum wager of 1 makes `_collect_bets` fail with `AttributeError`
(the `self.bet` slip in the error message) rather than the intended
recoverable `ValueError`; an above-maximum wager of 501 fails with the
proper `ValueError` (`invalidWager`).  In both cases the failure happens
before the bet is appended, so no state is mutated. -/
theorem collect_bets_below_min_attribute_error :
    collect_bets 1000 2 (some 500) [1] = .error .attrErr ∧
    collect_bets 1000 2 (some 500) [501] = .error .invalidWager := by
  constructor <;> rfl

lemma getElem?_take_of_lt {α : Type} {l : List α} {n i : Nat} (h : i < n) :
    (l.take n)[i]? = l[i]? := by
  rw [List.getElem?_take, if_pos h]

/-- One `for i in range(len(hands))` dealing loop of `Blackjack._deal`:
draw one face-up card for each hand in index order and `add` it. -/
def dealToEach (d : Deck) (fresh : List Card) : List Hand → Option (List Hand × Deck)
  | [] => some ([], d)
  | h :: rest =>
    match d.draw_card fresh false with
    | none => none
    | some (c, d1) =>
      match dealToEach d1 fresh rest with
      | none => none
      | some (hs, d2) => some (h.add c :: hs, d2)

/-- `Blackjack._deal`: reshuffle first if the stop card was reached last
round (the fresh shuffle is `fresh2`) and clear `insert_reached`; then one
face-up card to each player hand in order, one face-down card to the house,
a second face-up card to each player hand in order, and one face-up card to
the house, added at the *front* of the house hand. -/
def deal (d : Deck) (fresh fresh2 : List Card) (phs : List Hand) (house : Hand) :
    Option (List Hand × Hand × Deck) :=
  let d0 := if d.insert_reached then { d with cards := fresh2, insert_reached := false } else d
  match dealToEach d0 fresh phs with
  | none => none
  | some (phs1, d1) =>
    match d1.draw_card fresh true with
    | none => none
    | some (hc, d2) =>
      match dealToEach d2 fresh phs1 with
      | none => none
      | some (phs2, d3) =>
        match d3.draw_card fresh false with
        | none => none
        | some (hc2, d4) => some (phs2, (house.add hc).add hc2 true, d4)

lemma draw_card_clean_up (d : Deck) (fresh : List Card)
    (c : Card) (cs' : List Card) (hcards : d.cards = c :: cs') (hc : c.rank ≠ 0) :
    d.draw_card fresh false = some (c.flip, { d with cards := cs' }) := by
  unfold Deck.draw_card
  rw [hcards]
  simp only [List.cons_ne_self, reduceCtorEq, if_neg, if_false]
  rw [if_neg hc]

lemma draw_card_clean_down (d : Deck) (fresh : List Card)
    (c : Card) (cs' : List Card) (hcards : d.cards = c :: cs') (hc : c.rank ≠ 0) :
    d.draw_card fresh true = some (c, { d with cards := cs' }) := by
  unfold Deck.draw_card
  rw [hcards]
  simp only [List.cons_ne_self, reduceCtorEq, if_neg, if_false]
  rw [if_neg hc]
  simp

lemma dealToEach_clean (hands : List Hand) : ∀ (d : Deck) (fresh : List Card),
    hands.length ≤ d.cards.length →
    (∀ c ∈ d.cards.take hands.length, c.rank ≠ 0) →
    dealToEach d fresh hands =
      some (List.zipWith (fun h c => h.add c.flip) hands (d.cards.take hands.length),
            { d with cards := d.cards.drop hands.length }) := by
  induction hands with
  | nil =>
    intro d fresh _ _
    simp [dealToEach]
  | cons h rest ih =>
    intro d fresh hlen hclean
    obtain ⟨c, cs', hcards⟩ : ∃ c cs', d.cards = c :: cs' := by
      cases hc : d.cards with
      | nil => rw [hc] at hlen; simp at hlen
      | cons a b => exact ⟨a, b, rfl⟩
    have hc0 : c.rank ≠ 0 := by
      apply hclean
      rw [hcards]
      simp [List.take_cons]
    unfold dealToEach
    rw [draw_card_clean_up d fresh c cs' hcards hc0]
    dsimp only
    rw [ih { d with cards := cs' } fresh
      (by
        simp only []
        rw [hcards] at hlen
        simpa using hlen)
      (by
        intro x hx
        apply hclean
        rw [hcards]
        simp only [List.length_cons, List.take_succ_cons, List.mem_cons]
        right
        exact hx)]
    rw [hcards]
    simp only [List.length_cons, List.take_succ_cons, List.drop_succ_cons,
      List.zipWith_cons_cons]

lemma mem_take_mono {α : Type} {l : List α} {m n : Nat} (h : m ≤ n) :
    ∀ c ∈ l.take m, c ∈ l.take n := by
  intro c hc
  rw [List.mem_take_iff_getElem] at hc ⊢
  obtain ⟨i, hi, rfl⟩ := hc
  rw [lt_min_iff] at hi
  exact ⟨i, lt_min_iff.mpr ⟨by omega, hi.2⟩, rfl⟩

/-- C3: with `n` player hands and no pending reshuffle, the deal phase
consumes exactly the first `2n + 2` cards of the shoe, in this exact order:
card `i` goes face-up to player hand `i` (`0 ≤ i < n`), card `n` goes
face-down to the house, card `n + 1 + i` goes face-up to player hand `i` as
its second card, and card `2n + 1` goes face-up to the house (added at the
front of the house hand, before the hidden card). -/
theorem deal_draws_in_order (d : Deck) (fresh fresh2 : List Card)
    (phs : List Hand) (house : Hand)
    (hir : d.insert_reached = false)
    (hlen : 2 * phs.length + 2 ≤ d.cards.length)
    (hclean : ∀ c ∈ d.cards.take (2 * phs.length + 2), c.rank ≠ 0) :
    ∃ phs2 house2 d4,
      deal d fresh fresh2 phs house = some (phs2, house2, d4) ∧
      d4.cards = d.cards.drop (2 * phs.length + 2) ∧
      d4.insert_reached = false ∧
      d4.num_decks = d.num_decks ∧ d4.use_stop_card = d.use_stop_card ∧
      phs2.length = phs.length ∧
      (∀ i, i < phs.length →
        phs2[i]? = (match phs[i]?, d.cards[i]?, d.cards[phs.length + 1 + i]? with
          | some h0, some c1, some c2 => some ((h0.add c1.flip).add c2.flip)
          | _, _, _ => none)) ∧
      house2 = (match d.cards[phs.length]?, d.cards[2 * phs.length + 1]? with
        | some cdown, some cup => (house.add cdown).add cup.flip true
        | _, _ => house) := by
  have hmem : ∀ i, i < 2 * phs.length + 2 → ∀ (hi : i < d.cards.length),
      (d.cards.get ⟨i, hi⟩).rank ≠ 0 := by
    intro i h2 hi
    apply hclean
    rw [List.mem_take_iff_getElem]
    exact ⟨i, lt_min_iff.mpr ⟨by omega, hi⟩, rfl⟩
  unfold deal
  rw [hir]
  simp only [Bool.false_eq_true, if_false]
  rw [dealToEach_clean phs d fresh (by omega)
    (fun c hc => hclean c (mem_take_mono (by omega) c hc))]
  dsimp only
  obtain ⟨ch, cs1, hdrop1⟩ : ∃ ch cs1, d.cards.drop phs.length = ch :: cs1 := by
    cases hcc : d.cards.drop phs.length with
    | nil =>
      have := congrArg List.length hcc
      simp only [List.length_drop, List.length_nil] at this
      omega
    | cons a b => exact ⟨a, b, rfl⟩
  have hch : ch = d.cards.get ⟨phs.length, by omega⟩ := by
    have h0 := List.getElem?_drop d.cards phs.length 0
    rw [hdrop1, List.getElem?_cons_zero, Nat.add_zero,
      List.getElem?_eq_getElem (by omega : phs.length < d.cards.length)] at h0
    exact Option.some.inj h0
  have hch0 : ch.rank ≠ 0 := by
    rw [hch]; exact hmem phs.length (by omega) (by omega)
  rw [draw_card_clean_down { d with cards := d.cards.drop phs.length } fresh ch cs1
    hdrop1 hch0]
  dsimp only
  have hcs1 : cs1 = d.cards.drop (phs.length + 1) := by
    have ht : (d.cards.drop phs.length).tail = d.cards.drop (phs.length + 1) :=
      List.tail_drop d.cards phs.length
    rw [hdrop1] at ht
    simpa using ht
  have hcs1len : phs.length + 1 + cs1.length = d.cards.length := by
    have := congrArg List.length hcs1
    simp only [List.length_drop] at this
    omega
  have hziplen :
      (List.zipWith (fun h c => h.add c.flip) phs (d.cards.take phs.length)).length
        = phs.length := by
    rw [List.length_zipWith, List.length_take]
    omega
  rw [dealToEach_clean (List.zipWith (fun h c => h.add c.flip) phs (d.cards.take phs.length))
    { d with cards := cs1 } fresh
    (by
      simp only [hziplen]
      omega)
    (by
      intro x hx
      simp only [hziplen] at hx
      rw [hcs1] at hx
      rw [List.mem_take_iff_getElem] at hx
      obtain ⟨i, hi, rfl⟩ := hx
      rw [lt_min_iff] at hi
      rw [List.getElem_drop]
      apply hmem
      omega)]
  dsimp only
  obtain ⟨cl, cs2, hdrop2⟩ : ∃ cl cs2,
      cs1.drop (List.zipWith (fun h c => h.add c.flip) phs (d.cards.take phs.length)).length
        = cl :: cs2 := by
    cases hcc : cs1.drop (List.zipWith (fun h c => h.add c.flip) phs (d.cards.take phs.length)).length with
    | nil =>
      have := congrArg List.length hcc
      rw [List.length_drop, hziplen] at this
      simp only [List.length_nil] at this
      omega
    | cons a b => exact ⟨a, b, rfl⟩
  have hdropeq :
      cs1.drop (List.zipWith (fun h c => h.add c.flip) phs (d.cards.take phs.length)).length
        = d.cards.drop (2 * phs.length + 1) := by
    rw [hziplen, hcs1, List.drop_drop]
    congr 1
    omega
  have hcl : cl = d.cards.get ⟨2 * phs.length + 1, by omega⟩ := by
    have h0 := List.getElem?_drop d.cards (2 * phs.length + 1) 0
    rw [← hdropeq, hdrop2, List.getElem?_cons_zero, Nat.add_zero,
      List.getElem?_eq_getElem (by omega : 2 * phs.length + 1 < d.cards.length)] at h0
    exact Option.some.inj h0
  have hcl0 : cl.rank ≠ 0 := by
    rw [hcl]; exact hmem (2 * phs.length + 1) (by omega) (by omega)
  rw [draw_card_clean_up _ fresh cl cs2 hdrop2 hcl0]
  dsimp only
  have hcs2 : cs2 = d.cards.drop (2 * phs.length + 2) := by
    have ht := List.tail_drop d.cards (2 * phs.length + 1)
    rw [← hdropeq, hdrop2] at ht
    simp only [List.tail_cons] at ht
    rw [ht]
  refine ⟨_, _, _, rfl, ?_, ?_, rfl, rfl, ?_, ?_, ?_⟩
  · exact hcs2
  · exact hir
  · simp only [List.length_zipWith, List.length_take]
    omega
  · intro i hi
    rw [List.getElem?_zipWith, List.getElem?_zipWith]
    rw [List.getElem?_eq_getElem (hi : i < phs.length)]
    rw [getElem?_take_of_lt hi,
      List.getElem?_eq_getElem (by omega : i < d.cards.length)]
    rw [getElem?_take_of_lt (by rw [hziplen]; exact hi)]
    have hcs1i : cs1[i]? = d.cards[phs.length + 1 + i]? := by
      rw [hcs1]
      exact List.getElem?_drop d.cards (phs.length + 1) i
    rw [hcs1i,
      List.getElem?_eq_getElem
        (lt_of_lt_of_le (by omega : phs.length + 1 + i < 2 * phs.length + 2) hlen)]
  · rw [hch, hcl]
    rw [List.getElem?_eq_getElem (by omega : phs.length < d.cards.length),
      List.getElem?_eq_getElem (by omega : 2 * phs.length + 1 < d.cards.length)]
    rfl

/-- A concrete five-card shoe for exercising the deal phase. -/
def dealDeck : Deck :=
  Deck.mk 6 false false
    [mkCard 5 1, mkCard 1 2, mkCard 9 3, mkCard 13 4, mkCard 2 1]

/-- Witness for C3: dealing one player hand from `dealDeck`. -/
theorem deal_draws_in_order_witness :
    dealDeck.insert_reached = false ∧
    2 * [Hand.mk [] 0].length + 2 ≤ dealDeck.cards.length ∧
    (∃ phs2 house2 d4,
      deal dealDeck [] [] [Hand.mk [] 0] (Hand.mk [] 0) = some (phs2, house2, d4) ∧
      d4.cards = dealDeck.cards.drop (2 * [Hand.mk [] 0].length + 2) ∧
      d4.insert_reached = false ∧
      d4.num_decks = dealDeck.num_decks ∧
      d4.use_stop_card = dealDeck.use_stop_card ∧
      phs2.length = [Hand.mk [] 0].length ∧
      (∀ i, i < [Hand.mk [] 0].length →
        phs2[i]? = (match [Hand.mk [] 0][i]?, dealDeck.cards[i]?,
            dealDeck.cards[[Hand.mk [] 0].length + 1 + i]? with
          | some h0, some c1, some c2 => some ((h0.add c1.flip).add c2.flip)
          | _, _, _ => none)) ∧
      house2 = (match dealDeck.cards[[Hand.mk [] 0].length]?,
          dealDeck.cards[2 * [Hand.mk [] 0].length + 1]? with
        | some cdown, some cup => ((Hand.mk [] 0).add cdown).add cup.flip true
        | _, _ => Hand.mk [] 0)) :=
  ⟨rfl, by decide,
    deal_draws_in_order dealDeck [] [] [Hand.mk [] 0] (Hand.mk [] 0)
      rfl (by decide) (by decide)⟩

/-- Modelled from the spec's words for C4 ("assignments of 11 or 1 to the
hand's aces"): the low value of a rank - aces count 1, every other card its
construction value. -/
def lowValue (r : Nat) : Nat :=
  if r = 1 then 1 else derivedValue r

def lowSum (rs : List Nat) : Nat :=
  (rs.map lowValue).sum

def aceCount (rs : List Nat) : Nat :=
  rs.countP (fun r => r == 1)

/-- The total of the assignment that values `j` of the aces at 11 and the
rest at 1. -/
def assignTotal (rs : List Nat) (j : Nat) : Nat :=
  lowSum rs + 10 * j

/-- Modelled from the spec's words for C4 ("subject to keeping aces at 11
when score ≤ 21 permits"): an assignment is admissible when no further ace
could be raised to 11 - either every ace is already high, or raising one
more would push the total past 21. -/
def AdmissibleHigh (rs : List Nat) (j : Nat) : Prop :=
  j ≤ aceCount rs ∧ (j = aceCount rs ∨ 21 < assignTotal rs (j + 1))

instance (rs : List Nat) (j : Nat) : Decidable (AdmissibleHigh rs j) := by
  unfold AdmissibleHigh; infer_instance

/-- The numeric core of ace normalization: from a pre-orientation score
`s0 = L + 10 k0` with `k0` high aces out of `K`, the while loop lowers
`drop = min k0 ⌈(s0-21)/10⌉` of them (none if not busted), and the
resulting score is the minimum admissible assignment total. -/
lemma normalize_arith (L K k0 s0 sStar kStar drop : Nat)
    (hk0K : k0 ≤ K)
    (hs0 : s0 = L + 10 * k0)
    (hdropdef : drop = if s0 ≤ 21 then 0 else min k0 ((s0 - 12) / 10))
    (hs : sStar = s0 - 10 * drop) (hk : kStar = k0 - drop)
    (hlazy : k0 < K → 13 ≤ s0) :
    (21 < sStar → kStar = 0) ∧
    (kStar ≤ K ∧ (kStar = K ∨ 21 < L + 10 * (kStar + 1)) ∧
      sStar = L + 10 * kStar) ∧
    (∀ j, j ≤ K → (j = K ∨ 21 < L + 10 * (j + 1)) → sStar ≤ L + 10 * j) := by
  rcases Nat.lt_or_ge k0 K with hkK | hkK
  · have h13 := hlazy hkK
    by_cases hle : s0 ≤ 21
    · rw [if_pos hle] at hdropdef
      refine ⟨by omega, ⟨by omega, by omega, by omega⟩, fun j hj hadm => by omega⟩
    · rw [if_neg hle] at hdropdef
      refine ⟨by omega, ⟨by omega, by omega, by omega⟩, fun j hj hadm => by omega⟩
  · by_cases hle : s0 ≤ 21
    · rw [if_pos hle] at hdropdef
      refine ⟨by omega, ⟨by omega, by omega, by omega⟩, fun j hj hadm => by omega⟩
    · rw [if_neg hle] at hdropdef
      refine ⟨by omega, ⟨by omega, by omega, by omega⟩, fun j hj hadm => by omega⟩

lemma orientCards_not_busted {cs : List Card} (h : scoreOf cs ≤ 21) :
    orientCards cs = cs := by
  unfold orientCards
  rw [if_neg (by omega)]

lemma orientCards_no_eleven {cs : List Card} (h1 : 21 < scoreOf cs)
    (h2 : lowerFirstEleven cs = none) : orientCards cs = cs := by
  unfold orientCards
  rw [if_pos h1]
  split
  · rename_i heq
    rw [h2] at heq
    exact Option.noConfusion heq
  · rfl

lemma orientCards_step {cs cs' : List Card} (h1 : 21 < scoreOf cs)
    (h2 : lowerFirstEleven cs = some cs') : orientCards cs = orientCards cs' := by
  conv_lhs => unfold orientCards
  rw [if_pos h1]
  split
  · rename_i heq
    rw [h2] at heq
    cases heq
    rfl
  · rename_i heq
    rw [h2] at heq
    exact Option.noConfusion heq

lemma lowerFirstEleven_of_count {cs : List Card} (h : count11 cs = 0) :
    lowerFirstEleven cs = none := by
  cases hlow : lowerFirstEleven cs with
  | none => rfl
  | some cs' =>
    have := (lowerFirstEleven_spec hlow).1
    omega

/-- The number of aces the `_orient_hand` loop lowers. -/
def orientDrop (cs : List Card) : Nat :=
  if scoreOf cs ≤ 21 then 0 else min (count11 cs) ((scoreOf cs - 12) / 10)

lemma orient_eq : ∀ (k : Nat) (cs : List Card), count11 cs ≤ k →
    scoreOf (orientCards cs) = scoreOf cs - 10 * orientDrop cs ∧
    count11 (orientCards cs) = count11 cs - orientDrop cs := by
  intro k
  induction k with
  | zero =>
    intro cs hk
    by_cases hle : scoreOf cs ≤ 21
    · rw [orientCards_not_busted hle]
      unfold orientDrop
      rw [if_pos hle]
      omega
    · rw [orientCards_no_eleven (by omega) (lowerFirstEleven_of_count (by omega))]
      unfold orientDrop
      rw [if_neg hle]
      omega
  | succ n ih =>
    intro cs hk
    by_cases hle : scoreOf cs ≤ 21
    · rw [orientCards_not_busted hle]
      unfold orientDrop
      rw [if_pos hle]
      omega
    · cases hlow : lowerFirstEleven cs with
      | none =>
        rw [orientCards_no_eleven (by omega) hlow]
        have hc0 := lowerFirstEleven_none hlow
        unfold orientDrop
        rw [if_neg hle]
        omega
      | some cs' =>
        rw [orientCards_step (by omega) hlow]
        obtain ⟨hcnt, hsc, _⟩ := lowerFirstEleven_spec hlow
        obtain ⟨ih1, ih2⟩ := ih cs' (by omega)
        unfold orientDrop at ih1 ih2 ⊢
        rw [if_neg hle]
        by_cases hle' : scoreOf cs' ≤ 21
        · rw [if_pos hle'] at ih1 ih2
          omega
        · rw [if_neg hle'] at ih1 ih2
          omega

lemma orient_ranks : ∀ (k : Nat) (cs : List Card), count11 cs ≤ k →
    (orientCards cs).map (fun c => c.rank) = cs.map (fun c => c.rank) := by
  intro k
  induction k with
  | zero =>
    intro cs hk
    by_cases hle : scoreOf cs ≤ 21
    · rw [orientCards_not_busted hle]
    · rw [orientCards_no_eleven (by omega) (lowerFirstEleven_of_count (by omega))]
  | succ n ih =>
    intro cs hk
    by_cases hle : scoreOf cs ≤ 21
    · rw [orientCards_not_busted hle]
    · cases hlow : lowerFirstEleven cs with
      | none => rw [orientCards_no_eleven (by omega) hlow]
      | some cs' =>
        rw [orientCards_step (by omega) hlow]
        obtain ⟨hcnt, _, hrk⟩ := lowerFirstEleven_spec hlow
        rw [ih cs' (by omega), hrk]

lemma derivedValue_ne_eleven {r : Nat} (h : r ≠ 1) : derivedValue r ≠ 11 := by
  unfold derivedValue
  rw [if_neg h]
  split
  · omega
  · rename_i hface
    omega

lemma lowerFirstEleven_wf : ∀ {cs cs' : List Card},
    (∀ c ∈ cs, WFCard c) → lowerFirstEleven cs = some cs' →
    ∀ c ∈ cs', WFCard c := by
  intro cs
  induction cs with
  | nil => intro cs' _ h; simp [lowerFirstEleven] at h
  | cons c rest ih =>
    intro cs' hwf h
    unfold lowerFirstEleven at h
    by_cases hc : c.value = 11
    · rw [if_pos hc] at h
      simp only [Option.some.injEq] at h
      subst h
      intro x hx
      rcases List.mem_cons.mp hx with hx1 | hx2
      · subst hx1
        have hwfc := hwf c (List.mem_cons_self _ _)
        have hr1 : c.rank = 1 := by
          unfold WFCard at hwfc
          by_cases hr : c.rank = 1
          · exact hr
          · rw [if_neg hr] at hwfc
            exact absurd (hwfc ▸ hc) (derivedValue_ne_eleven hr)
        unfold WFCard
        rw [if_pos hr1]
        right
        rfl
      · exact hwf x (List.mem_cons_of_mem _ hx2)
    · rw [if_neg hc] at h
      cases hrec : lowerFirstEleven rest with
      | none => rw [hrec] at h; exact absurd h (by simp)
      | some r =>
        rw [hrec] at h
        simp only [Option.map_some', Option.some.injEq] at h
        subst h
        intro x hx
        rcases List.mem_cons.mp hx with hx1 | hx2
        · exact hx1 ▸ hwf c (List.mem_cons_self _ _)
        · exact ih (fun y hy => hwf y (List.mem_cons_of_mem _ hy)) hrec x hx2

lemma orient_wf : ∀ (k : Nat) (cs : List Card), count11 cs ≤ k →
    (∀ c ∈ cs, WFCard c) → ∀ c ∈ orientCards cs, WFCard c := by
  intro k
  induction k with
  | zero =>
    intro cs hk hwf
    by_cases hle : scoreOf cs ≤ 21
    · rw [orientCards_not_busted hle]; exact hwf
    · rw [orientCards_no_eleven (by omega) (lowerFirstEleven_of_count (by omega))]
      exact hwf
  | succ n ih =>
    intro cs hk hwf
    by_cases hle : scoreOf cs ≤ 21
    · rw [orientCards_not_busted hle]; exact hwf
    · cases hlow : lowerFirstEleven cs with
      | none => rw [orientCards_no_eleven (by omega) hlow]; exact hwf
      | some cs' =>
        rw [orientCards_step (by omega) hlow]
        obtain ⟨hcnt, _, _⟩ := lowerFirstEleven_spec hlow
        exact ih cs' (by omega) (lowerFirstEleven_wf hwf hlow)

lemma score_decomp : ∀ (cs : List Card), (∀ c ∈ cs, WFCard c) →
    scoreOf cs = lowSum (cs.map (fun c => c.rank)) + 10 * count11 cs ∧
    count11 cs ≤ aceCount (cs.map (fun c => c.rank)) := by
  intro cs
  induction cs with
  | nil => intro _; simp [scoreOf, lowSum, count11, aceCount]
  | cons c rest ih =>
    intro hwf
    obtain ⟨ih1, ih2⟩ := ih (fun x hx => hwf x (List.mem_cons_of_mem _ hx))
    have hwfc := hwf c (List.mem_cons_self _ _)
    have hsc : scoreOf (c :: rest) = c.value + scoreOf rest := by
      simp [scoreOf]
    have hls : lowSum ((c :: rest).map (fun c => c.rank)) =
        lowValue c.rank + lowSum (rest.map (fun c => c.rank)) := by
      simp [lowSum]
    have hcnt : count11 (c :: rest) =
        count11 rest + if c.value == 11 then 1 else 0 := by
      unfold count11
      rw [List.countP_cons]
    have hace : aceCount ((c :: rest).map (fun c => c.rank)) =
        aceCount (rest.map (fun c => c.rank)) + if c.rank == 1 then 1 else 0 := by
      unfold aceCount
      rw [List.map_cons, List.countP_cons]
    unfold WFCard at hwfc
    by_cases hr : c.rank = 1
    · rw [if_pos hr] at hwfc
      have hlv : lowValue c.rank = 1 := by rw [hr]; rfl
      rcases hwfc with h11 | h1
      · rw [hsc, hls, hcnt, hace, hlv, hr, h11]
        norm_num
        omega
      · rw [hsc, hls, hcnt, hace, hlv, hr, h1]
        norm_num
        omega
    · rw [if_neg hr] at hwfc
      have hlv : lowValue c.rank = c.value := by
        unfold lowValue
        rw [if_neg hr, hwfc]
      have hne : ¬ (c.value == 11) = true := by
        simp only [beq_iff_eq]
        rw [hwfc]
        exact derivedValue_ne_eleven hr
      rw [hsc, hls, hcnt, hace, hlv, if_neg hne,
        if_neg (by simp only [beq_iff_eq]; exact hr)]
      omega

lemma exists_low_ace_of_count : ∀ (cs : List Card), (∀ c ∈ cs, WFCard c) →
    count11 cs < aceCount (cs.map (fun c => c.rank)) →
    ∃ x ∈ cs, x.rank = 1 ∧ x.value = 1 := by
  intro cs
  induction cs with
  | nil => intro _ h; simp [count11, aceCount] at h
  | cons c rest ih =>
    intro hwf hlt
    have hwfc := hwf c (List.mem_cons_self _ _)
    have hcnt : count11 (c :: rest) =
        count11 rest + if c.value == 11 then 1 else 0 := by
      unfold count11; rw [List.countP_cons]
    have hace : aceCount ((c :: rest).map (fun c => c.rank)) =
        aceCount (rest.map (fun c => c.rank)) + if c.rank == 1 then 1 else 0 := by
      unfold aceCount; rw [List.map_cons, List.countP_cons]
    unfold WFCard at hwfc
    by_cases hr : c.rank = 1
    · rw [if_pos hr] at hwfc
      rcases hwfc with h11 | h1
      · have : count11 rest < aceCount (rest.map (fun c => c.rank)) := by
          rw [hcnt, hace] at hlt
          rw [h11] at hlt
          simp only [hr] at hlt
          norm_num at hlt
          omega
        obtain ⟨x, hx, hx1, hx2⟩ :=
          ih (fun y hy => hwf y (List.mem_cons_of_mem _ hy)) this
        exact ⟨x, List.mem_cons_of_mem _ hx, hx1, hx2⟩
      · exact ⟨c, List.mem_cons_self _ _, hr, h1⟩
    · rw [if_neg hr] at hwfc
      have : count11 rest < aceCount (rest.map (fun c => c.rank)) := by
        rw [hcnt, hace] at hlt
        have hne11 : (c.value == 11) = false := by
          simp only [beq_eq_false_iff_ne, ne_eq]
          rw [hwfc]
          exact derivedValue_ne_eleven hr
        have hne1 : (c.rank == 1) = false := by
          simp only [beq_eq_false_iff_ne, ne_eq]
          exact hr
        rw [hne11, hne1] at hlt
        simpa using hlt
      obtain ⟨x, hx, hx1, hx2⟩ :=
        ih (fun y hy => hwf y (List.mem_cons_of_mem _ hy)) this
      exact ⟨x, List.mem_cons_of_mem _ hx, hx1, hx2⟩

lemma orient_min_admissible (cs0 : List Card)
    (hwf0 : ∀ x ∈ cs0, WFCard x)
    (hlazy0 : (∃ x ∈ cs0, x.rank = 1 ∧ x.value = 1) → 13 ≤ scoreOf cs0) :
    (21 < scoreOf (orientCards cs0) →
      ∀ x ∈ orientCards cs0, x.rank = 1 → x.value = 1) ∧
    (∃ j, AdmissibleHigh ((orientCards cs0).map (fun x => x.rank)) j ∧
      scoreOf (orientCards cs0) =
        assignTotal ((orientCards cs0).map (fun x => x.rank)) j) ∧
    (∀ j, AdmissibleHigh ((orientCards cs0).map (fun x => x.rank)) j →
      scoreOf (orientCards cs0) ≤
        assignTotal ((orientCards cs0).map (fun x => x.rank)) j) := by
  obtain ⟨hd1, hd2⟩ := score_decomp cs0 hwf0
  obtain ⟨ho1, ho2⟩ := orient_eq (count11 cs0) cs0 le_rfl
  have hrk := orient_ranks (count11 cs0) cs0 le_rfl
  have hwfo := orient_wf (count11 cs0) cs0 le_rfl hwf0
  have harith := normalize_arith (lowSum (cs0.map (fun c => c.rank)))
    (aceCount (cs0.map (fun c => c.rank))) (count11 cs0) (scoreOf cs0)
    (scoreOf (orientCards cs0)) (count11 (orientCards cs0)) (orientDrop cs0)
    hd2 hd1 rfl ho1 ho2
    (fun hlt => hlazy0 (exists_low_ace_of_count cs0 hwf0 hlt))
  refine ⟨?_, ?_, ?_⟩
  · intro hbust x hx hx1
    have hcnt0 := harith.1 hbust
    have := List.countP_eq_zero.mp hcnt0 x hx
    simp only [beq_iff_eq] at this
    have hwfx := hwfo x hx
    unfold WFCard at hwfx
    rw [if_pos hx1] at hwfx
    rcases hwfx with h11 | h1
    · exact absurd h11 this
    · exact h1
  · refine ⟨count11 (orientCards cs0), ?_, ?_⟩
    · unfold AdmissibleHigh assignTotal
      rw [hrk]
      exact ⟨harith.2.1.1, harith.2.1.2.1⟩
    · unfold assignTotal
      rw [hrk]
      exact harith.2.1.2.2
  · intro j hadm
    unfold AdmissibleHigh assignTotal at hadm
    rw [hrk] at hadm
    unfold assignTotal
    rw [hrk]
    exact harith.2.2 j hadm.1 hadm.2

/-- C4: adding a freshly drawn card to a reachable hand (well-formed card
values; any 1-valued ace was forced, i.e. implies score at least 12)
re-normalizes it so that (a) whenever the score exceeds 21 every ace is
valued 1, and (b) the resulting score is the minimum total over all
assignments of 11 or 1 to the hand's aces that keep aces at 11 whenever
score ≤ 21 permits (`AdmissibleHigh`). -/
theorem add_score_is_min_admissible (h : Hand) (c : Card) (front : Bool)
    (hwf : ∀ x ∈ h.cards, WFCard x)
    (hlazy : (∃ x ∈ h.cards, x.rank = 1 ∧ x.value = 1) → 12 ≤ scoreOf h.cards)
    (hcr : 1 ≤ c.rank) (hcr13 : c.rank ≤ 13)
    (hcv : c.value = derivedValue c.rank) :
    (21 < (h.add c front).score →
      ∀ x ∈ (h.add c front).cards, x.rank = 1 → x.value = 1) ∧
    (∃ j, AdmissibleHigh ((h.add c front).cards.map (fun x => x.rank)) j ∧
      (h.add c front).score =
        assignTotal ((h.add c front).cards.map (fun x => x.rank)) j) ∧
    (∀ j, AdmissibleHigh ((h.add c front).cards.map (fun x => x.rank)) j →
      (h.add c front).score ≤
        assignTotal ((h.add c front).cards.map (fun x => x.rank)) j) := by
  have hcval1 : 1 ≤ c.value := by
    rw [hcv]
    unfold derivedValue
    split
    · omega
    · split <;> omega
  have hwfc : WFCard c := by
    unfold WFCard
    by_cases hr : c.rank = 1
    · rw [if_pos hr]
      left
      rw [hcv, hr]
      rfl
    · rw [if_neg hr]
      exact hcv
  have hwf0 : ∀ x ∈ (if front then c :: h.cards else h.cards ++ [c]), WFCard x := by
    intro x hx
    cases front with
    | true =>
      rw [if_pos rfl] at hx
      rcases List.mem_cons.mp hx with h1 | h2
      · exact h1 ▸ hwfc
      · exact hwf x h2
    | false =>
      rw [if_neg Bool.false_ne_true] at hx
      rcases List.mem_append.mp hx with h2 | h1
      · exact hwf x h2
      · rw [List.mem_singleton.mp h1]
        exact hwfc
  have hs0 : scoreOf (if front then c :: h.cards else h.cards ++ [c]) =
      scoreOf h.cards + c.value := by
    cases front with
    | true => simp [scoreOf]; omega
    | false => simp [scoreOf]
  have hlazy0 : (∃ x ∈ (if front then c :: h.cards else h.cards ++ [c]),
      x.rank = 1 ∧ x.value = 1) →
      13 ≤ scoreOf (if front then c :: h.cards else h.cards ++ [c]) := by
    intro ⟨x, hx, hx1, hxv⟩
    have hxh : x ∈ h.cards := by
      have hxc : x ≠ c := by
        intro hxc
        subst hxc
        rw [hcv] at hxv
        unfold derivedValue at hxv
        rw [if_pos hx1] at hxv
        exact absurd hxv (by omega)
      cases front with
      | true =>
        rw [if_pos rfl] at hx
        rcases List.mem_cons.mp hx with h1 | h2
        · exact absurd h1 hxc
        · exact h2
      | false =>
        rw [if_neg Bool.false_ne_true] at hx
        rcases List.mem_append.mp hx with h2 | h1
        · exact h2
        · exact absurd (List.mem_singleton.mp h1) hxc
    have := hlazy ⟨x, hxh, hx1, hxv⟩
    rw [hs0]
    omega
  exact orient_min_admissible (if front then c :: h.cards else h.cards ++ [c])
    hwf0 hlazy0

/-- Witness for C4: adding a king to an empty hand. -/
theorem add_score_is_min_admissible_witness :
    (∀ x ∈ (Hand.mk [] 0).cards, WFCard x) ∧
    ((21 < ((Hand.mk [] 0).add (mkCard 13 1) false).score →
      ∀ x ∈ ((Hand.mk [] 0).add (mkCard 13 1) false).cards,
        x.rank = 1 → x.value = 1) ∧
    (∃ j, AdmissibleHigh (((Hand.mk [] 0).add (mkCard 13 1) false).cards.map
        (fun x => x.rank)) j ∧
      ((Hand.mk [] 0).add (mkCard 13 1) false).score =
        assignTotal (((Hand.mk [] 0).add (mkCard 13 1) false).cards.map
          (fun x => x.rank)) j) ∧
    (∀ j, AdmissibleHigh (((Hand.mk [] 0).add (mkCard 13 1) false).cards.map
        (fun x => x.rank)) j →
      ((Hand.mk [] 0).add (mkCard 13 1) false).score ≤
        assignTotal (((Hand.mk [] 0).add (mkCard 13 1) false).cards.map
          (fun x => x.rank)) j)) :=
  ⟨by decide,
    add_score_is_min_admissible (Hand.mk [] 0) (mkCard 13 1) false
      (by decide) (by decide) (by decide) (by decide) rfl⟩

end Blackjack
